import Mathlib

/-!
Verification of the anchoring documentation-snippet server.

Texts are modelled as `List Char`.  The tokenizer oracle is an arbitrary
function `count : List Char → Nat`.  Embedding vectors are modelled over `ℚ`
(the rationals model exactly the float computations the claims test).

The core chunker, the aggregator and the per-document embedding wrapper are
not present under the repository sources (the server delegates splitting to
the external `semantic_text_splitter` library), so those components are
modelled from the specification text, as marked in the doc comments below.
Everything else is translated directly from `app/server.py` and
`app/setup_collection.py`.
-/

namespace Anchoring

/-! ### Chunker (modelled from the spec, §4.1) -/

/-- Boolean test that `s` occurs at the head of `u` (used by the occurrence
search of the chunker model). -/
def hasPre : List Char → List Char → Bool
  | [], _ => true
  | _ :: _, [] => false
  | a :: as, b :: bs => a == b && hasPre as bs

/-- Index of the first occurrence of `sep` in `t`, if any.  The empty
separator occurs at index `0` in every text. -/
def findSep (sep : List Char) : List Char → Option Nat
  | [] => if hasPre sep [] then some 0 else none
  | c :: ts => if hasPre sep (c :: ts) then some 0 else (findSep sep ts).map (· + 1)

/-- Fuelled splitting of a text at every occurrence of a non-empty separator;
the separator itself is removed and the parts are returned in order.  The
fuel is instantiated with `t.length + 1` in `splitOnSep`, which is enough to
consume every occurrence. -/
def splitOnSepF (sep : List Char) : Nat → List Char → List (List Char)
  | 0, t => [t]
  | fuel + 1, t =>
    match findSep sep t with
    | none => [t]
    | some i =>
      if sep = [] then [t]
      else t.take i :: splitOnSepF sep fuel (t.drop (i + sep.length))

/-- Split `t` at every occurrence of the non-empty separator `sep`. -/
def splitOnSep (sep t : List Char) : List (List Char) :=
  splitOnSepF sep (t.length + 1) t

/-- Modelled from the spec: rule 4 of §4.1.  The text is divided into content
parts at each occurrence of the separator; the empty separator means
single-character granularity. -/
def splitParts (sep t : List Char) : List (List Char) :=
  if sep = [] then t.map (fun c => [c]) else splitOnSep sep t

/-- Joining of content parts with the separator re-inserted between them
(the inverse of `splitParts`). -/
def joinSep (sep : List Char) : List (List Char) → List Char
  | [] => []
  | [p] => p
  | p :: ps => p ++ sep ++ joinSep sep ps

/-- Flush an accumulator: an empty accumulator produces no chunk. -/
def flushA (acc : List Char) : List (List Char) :=
  if acc = [] then [] else [acc]

/-- Modelled from the spec: the separator-reattachment step of rule 5 of
§4.1.  The trailing separator of a recursively split content item is attached
to the last sub-chunk if the result stays within budget, otherwise the
separator is emitted as its own chunk, recursing again if even the bare
separator exceeds the budget. -/
def attachSep (count : List Char → Nat) (maxTokens : Nat)
    (recur : List Char → List (List Char)) (sep : List Char) :
    List (List Char) → List (List Char)
  | [] => if count sep ≤ maxTokens then [sep] else recur sep
  | [l] =>
    if count (l ++ sep) ≤ maxTokens then [l ++ sep]
    else if count sep ≤ maxTokens then [l, sep]
    else l :: recur sep
  | l :: ls => l :: attachSep count maxTokens recur sep ls

/-- Modelled from the spec: the accumulator loop of rule 5 of §4.1.  Content
parts (with their trailing separator, except for the final part) are packed
greedily into an accumulator while the token count stays within budget; an
overfull single piece is split recursively through `recur` (the next
separator level) and spliced into the output. -/
def packParts (count : List Char → Nat) (maxTokens : Nat) (sep : List Char)
    (recur : List Char → List (List Char)) :
    List (List Char) → List Char → List (List Char)
  | [], acc => flushA acc
  | [p], acc =>
    if count (acc ++ p) ≤ maxTokens then flushA (acc ++ p)
    else flushA acc ++ (if count p ≤ maxTokens then flushA p else recur p)
  | p :: ps, acc =>
    if count (acc ++ (p ++ sep)) ≤ maxTokens then
      packParts count maxTokens sep recur ps (acc ++ (p ++ sep))
    else
      flushA acc ++
        (if count (p ++ sep) ≤ maxTokens then
          packParts count maxTokens sep recur ps (p ++ sep)
        else
          attachSep count maxTokens recur sep (recur p) ++
            packParts count maxTokens sep recur ps [])

/-- Modelled from the spec: the recursive descent of §4.1 (rules 2, 4, 5 and
the empty-input edge of rule 7).  An in-budget text is returned unchanged;
otherwise the text is split at the first separator of the hierarchy that
actually appears in it and the parts are packed, recursing into the tail of
the hierarchy for oversized parts. -/
def chunkRec (count : List Char → Nat) (maxTokens : Nat) :
    List (List Char) → List Char → List (List Char)
  | [], t => if t = [] then [] else [t]
  | s :: rest, t =>
    if t = [] then []
    else if count t ≤ maxTokens then [t]
    else if (findSep s t).isSome then
      packParts count maxTokens s (chunkRec count maxTokens rest) (splitParts s t) []
    else chunkRec count maxTokens rest t

/-- Modelled from the spec: the verification pass of rule 6 of §4.1.  Any
chunk that still exceeds the budget is recursively re-chunked. -/
def verifyPass (count : List Char → Nat) (maxTokens : Nat)
    (seps : List (List Char)) (cs : List (List Char)) : List (List Char) :=
  (cs.map (fun c =>
    if count c ≤ maxTokens then [c] else chunkRec count maxTokens seps c)).flatten

/-- Modelled from the spec: the optimization/coalescing pass of rule 6 of
§4.1.  Adjacent chunks are greedily merged into a buffer while the merged
token count stays within budget. -/
def coalesce (count : List Char → Nat) (maxTokens : Nat) :
    List (List Char) → List Char → List (List Char)
  | [], buf => flushA buf
  | c :: cs, buf =>
    if count (buf ++ c) ≤ maxTokens then coalesce count maxTokens cs (buf ++ c)
    else flushA buf ++ coalesce count maxTokens cs c

/-- Modelled from the spec: the top-level chunk operation of §4.1 (the
recursive descent, the verification pass, the coalescing pass, and the final
re-verification which fails loudly, modelled as `Except.error`, if any merged
chunk exceeds the budget).  The empty input returns the empty chunk list per
rule 7. -/
def chunk (count : List Char → Nat) (maxTokens : Nat) (seps : List (List Char))
    (t : List Char) : Except Unit (List (List Char)) :=
  if t = [] then Except.ok []
  else
    let raw := chunkRec count maxTokens seps t
    let verified := verifyPass count maxTokens seps raw
    let merged := coalesce count maxTokens verified []
    if merged.all (fun c => count c ≤ maxTokens) then Except.ok merged
    else Except.error ()

/-! ### Aggregator (modelled from the spec, §4.3) -/

/-- Element-wise sum of a non-empty family of vectors (helper for the
aggregator). -/
def vecSum : List (List ℚ) → List ℚ
  | [] => []
  | v :: vs => vs.foldl (fun a b => List.zipWith (· + ·) a b) v

/-- Modelled from the spec: the aggregator of §4.3 (not present under the
repository sources).  The element-wise arithmetic mean of a non-empty list of
vectors; an empty input signals the defensive `InvalidInput` error. -/
def aggregate (vectors : List (List ℚ)) : Except Unit (List ℚ) :=
  match vectors with
  | [] => Except.error ()
  | v :: vs =>
    Except.ok ((vecSum (v :: vs)).map (fun x => x / ((v :: vs).length : ℚ)))

/-! ### Embedding call wrapper (modelled from the spec, §4.2) -/

/-- Modelled from the spec: the per-document embedding call wrapper of §4.2
(not present under the repository sources).  One provider call per chunk in
order, a failed call is substituted by a zero vector of dimension `dim`, and
a document with zero chunks still yields a single zero vector. -/
def embedDocument (embed : List Char → Option (List ℚ)) (dim : Nat)
    (chunks : List (List Char)) : List (List ℚ) :=
  if chunks.isEmpty then [List.replicate dim 0]
  else chunks.map (fun c => (embed c).getD (List.replicate dim 0))

/-! ### EmbeddingService.embed_text (from `app/server.py`) -/

/-- `Config.EMBEDDING_DIMENSIONS` from `app/server.py`. -/
def EMBEDDING_DIMENSIONS : Nat := 3072

/-- Outcome of the OpenAI embedding call in `embed_text`: either a vector or
an exception of any kind (network, auth, provider). -/
inductive ProviderOutcome
  | ok (v : List ℚ)
  | failed

/-- Python truthiness of the configured API key: `None` and the empty string
are falsy. -/
def keyFalsy : Option String → Bool
  | none => true
  | some s => s == ""

/-- `EmbeddingService.embed_text` from `app/server.py`: with a falsy API key
or on any provider exception it returns `EMBEDDING_DIMENSIONS` zeros,
otherwise the provider's vector. -/
def embed_text (apiKey : Option String) (provider : ProviderOutcome) : List ℚ :=
  if keyFalsy apiKey then List.replicate EMBEDDING_DIMENSIONS 0
  else
    match provider with
    | .ok v => v
    | .failed => List.replicate EMBEDDING_DIMENSIONS 0

/-! ### DocumentationService._build_search_filters (from `app/server.py`) -/

/-- `DocumentationCategory` from `app/server.py`. -/
inductive Category
  | language
  | framework
  | library
deriving DecidableEq

/-- `TechComponent` from `app/server.py`. -/
structure TechComponent where
  name : String
  version : Option String
deriving DecidableEq

/-- The fields of `DocumentationQueryRequest` that `_build_search_filters`
reads. -/
structure QueryRequest where
  category : Category
  languages : Option (List TechComponent)
  frameworks : Option (List TechComponent)
  libraries : Option (List TechComponent)

/-- A flat metadata condition: a Python dict with string values, in insertion
order.  The merges `{**a, **b}` performed by the source never collide on
keys, so a merge is list append. -/
abbrev Cond := List (String × String)

/-- A value of the final ChromaDB `where` filter: either a plain string or a
list of sub-conditions (under `"$or"` / `"$and"`). -/
inductive FilterValue
  | str (s : String)
  | conds (cs : List Cond)

/-- The metadata string of a category. -/
def catStr : Category → String
  | .language => "language"
  | .framework => "framework"
  | .library => "library"

/-- Python truthiness of an optional version string. -/
def versionTruthy : Option String → Bool
  | none => false
  | some v => v != ""

/-- Python truthiness of an optional component list. -/
def listTruthy : Option (List TechComponent) → Bool
  | none => false
  | some l => !l.isEmpty

/-- `base_filter` of `_build_search_filters`. -/
def baseFilter (req : QueryRequest) : Cond :=
  [("category", catStr req.category)]

/-- `lang_condition` of `_build_search_filters`. -/
def langCond (l : TechComponent) : Cond :=
  ("language", l.name) ::
    (if versionTruthy l.version then [("language_version", l.version.getD "")] else [])

/-- `framework_condition` of `_build_search_filters`. -/
def fwCond (f : TechComponent) : Cond :=
  ("framework", f.name) ::
    (if versionTruthy f.version then [("framework_version", f.version.getD "")] else [])

/-- `library_condition` of `_build_search_filters`. -/
def libCond (l : TechComponent) : Cond :=
  ("library", l.name) ::
    (if versionTruthy l.version then [("library_version", l.version.getD "")] else [])

/-- The `where_conditions` list built by `_build_search_filters`, following
the source's three category branches and their nested loops. -/
def whereConditions (req : QueryRequest) : List Cond :=
  match req.category with
  | .language =>
    if listTruthy req.languages then
      (req.languages.getD []).map (fun l => baseFilter req ++ langCond l)
    else [baseFilter req]
  | .framework =>
    if listTruthy req.frameworks then
      ((req.frameworks.getD []).map (fun f =>
        if listTruthy req.languages then
          (req.languages.getD []).map (fun l =>
            baseFilter req ++ fwCond f ++ langCond l)
        else [baseFilter req ++ fwCond f])).flatten
    else [baseFilter req]
  | .library =>
    if listTruthy req.libraries then
      ((req.libraries.getD []).map (fun lib =>
        if listTruthy req.languages || listTruthy req.frameworks then
          if listTruthy req.languages && listTruthy req.frameworks then
            ((req.languages.getD []).map (fun l =>
              (req.frameworks.getD []).map (fun f =>
                baseFilter req ++ libCond lib ++ langCond l ++ fwCond f))).flatten
          else if listTruthy req.languages then
            (req.languages.getD []).map (fun l =>
              baseFilter req ++ libCond lib ++ langCond l)
          else
            (req.frameworks.getD []).map (fun f =>
              baseFilter req ++ libCond lib ++ fwCond f)
        else [baseFilter req ++ libCond lib])).flatten
    else [baseFilter req]

/-- The string stored in a `FilterValue.str`; the `.conds` case is never hit
by the restructuring step, which only runs when no key starts with `$`. -/
def strOf : FilterValue → String
  | .str s => s
  | .conds _ => ""

/-- Python's `key.startswith('$')`: the first character is `$`. -/
def startsDollar (s : String) : Bool :=
  match s.data with
  | [] => false
  | c :: _ => c == '$'

/-- The `where_filter` value of `_build_search_filters` before the `$and`
restructuring step: an `$or` over the conditions when there are several,
the single condition when there is one, the empty dict otherwise. -/
def whereFilterRaw (req : QueryRequest) : List (String × FilterValue) :=
  if 1 < (whereConditions req).length then
    [("$or", FilterValue.conds (whereConditions req))]
  else
    match whereConditions req with
    | c :: _ => c.map (fun kv => (kv.1, FilterValue.str kv.2))
    | [] => []

/-- `DocumentationService._build_search_filters` from `app/server.py`: the
final `where` filter — `whereFilterRaw`, restructured into an `$and` of
single-key sub-dicts when it has several keys none of which starts with
`$`. -/
def build_search_filters (req : QueryRequest) : List (String × FilterValue) :=
  if (!(whereFilterRaw req).any (fun kv => startsDollar kv.1)) &&
      decide (1 < (whereFilterRaw req).length) then
    [("$and", FilterValue.conds
      ((whereFilterRaw req).map (fun kv => [(kv.1, strOf kv.2)])))]
  else whereFilterRaw req

/-! ### DocumentationService.list_components (from `app/server.py`) -/

/-- A flat metadata mapping as stored in ChromaDB. -/
abbrev Meta := List (String × String)

/-- Python `meta.get(k)`. -/
def metaGet (m : Meta) (k : String) : Option String :=
  (m.find? (fun kv => kv.1 == k)).map (·.2)

/-- Python `meta.get(k, d)`. -/
def metaGetD (m : Meta) (k : String) (d : String) : String :=
  (metaGet m k).getD d

/-- The valid categories accepted by `list_components`. -/
def validCategories : List String := ["language", "framework", "library"]

/-- Outcome of `await collection.get(...)` as observed by `list_components`:
an exception, `None`, a non-dict value, or a dict whose `"metadatas"` entry
is absent/`None` (`none`) or a list. -/
inductive GetOutcome
  | raised
  | isNone
  | notDict
  | ok (metadatas : Option (List Meta))

/-- `items.add((name, version))` guarded by Python's `if name:` — the entry
is kept only when the name is present and non-empty. -/
def mkComponent : Option String → String → Option (String × String)
  | some n, version => if n ≠ "" then some (n, version) else none
  | none, _ => none

/-- The (name, version) pair extracted from one metadata entry for a given
category, following the three branches of the loop in `list_components`. -/
def componentOf (category : String) (m : Meta) : Option (String × String) :=
  if category = "language" then
    mkComponent (metaGet m "language") (metaGetD m "language_version" "")
  else if category = "framework" then
    mkComponent (metaGet m "framework") (metaGetD m "framework_version" "")
  else
    mkComponent (metaGet m "library") (metaGetD m "library_version" "")

/-- The order used by Python's `sorted` on `(name, version)` string pairs:
lexicographic. -/
def pairRel (a b : String × String) : Prop :=
  a.1 < b.1 ∨ (a.1 = b.1 ∧ a.2 ≤ b.2)

instance pairRelDecidable : DecidableRel pairRel := fun a b =>
  inferInstanceAs (Decidable (a.1 < b.1 ∨ (a.1 = b.1 ∧ a.2 ≤ b.2)))

instance pairRelTotal : IsTotal (String × String) pairRel where
  total a b := by
    rcases lt_trichotomy a.1 b.1 with h | h | h
    · exact Or.inl (Or.inl h)
    · rcases le_total a.2 b.2 with h2 | h2
      · exact Or.inl (Or.inr ⟨h, h2⟩)
      · exact Or.inr (Or.inr ⟨h.symm, h2⟩)
    · exact Or.inr (Or.inl h)

instance pairRelTrans : IsTrans (String × String) pairRel where
  trans a b c hab hbc := by
    rcases hab with h1 | ⟨e1, l1⟩
    · rcases hbc with h2 | ⟨e2, _⟩
      · exact Or.inl (h1.trans h2)
      · exact Or.inl (e2 ▸ h1)
    · rcases hbc with h2 | ⟨e2, l2⟩
      · exact Or.inl (e1 ▸ h2)
      · exact Or.inr ⟨e1.trans e2, l1.trans l2⟩

/-- Python's `sorted(set(pairs))`: the deduplicated pairs in sorted order. -/
def sortPairs (ps : List (String × String)) : List (String × String) :=
  List.insertionSort pairRel ps.dedup

/-- `DocumentationService.list_components` from `app/server.py`: returns `[]`
when the database is unavailable, the category invalid, or the collection
call misbehaves in any way; otherwise the sorted deduplicated (name, version)
pairs of the matching metadata. -/
def list_components (available : Bool) (category : String) (o : GetOutcome) :
    List (String × String) :=
  if available = false then []
  else if category ∉ validCategories then []
  else
    match o with
    | .raised => []
    | .isNone => []
    | .notDict => []
    | .ok metadatas =>
      sortPairs ((metadatas.getD []).filterMap (componentOf category))

/-! ### setup_collection (from `app/setup_collection.py`) -/

/-- Result of one client call: a value or a raised exception. -/
inductive CallRes (α : Type)
  | ok (a : α)
  | exn
deriving DecidableEq

/-- The behaviour of the ChromaDB client as observed by `setup_collection`:
what each client call returns (or that it raises).  `getCollectionId` and
`createCollectionId` are the `collection.id` values of `get_collection` and
`create_collection` (`none` models a falsy id). -/
structure ChromaEnv where
  connect : CallRes Unit
  collections : CallRes (List String)
  deleteRes : CallRes Unit
  getCollectionId : CallRes (Option String)
  createCollectionId : CallRes (Option String)

/-- Observable outcome of `setup_collection`: its return value and whether
`delete_collection` / `create_collection` were invoked. -/
structure SetupResult where
  ret : Option String
  deleteInvoked : Bool
  createInvoked : Bool
deriving DecidableEq

/-- `COLLECTION_NAME` from `app/setup_collection.py`. -/
def COLLECTION_NAME : String := "documentation_snippets"

/-- Python truthiness of `collection.id`. -/
def idTruthy : Option String → Bool
  | none => false
  | some s => s != ""

/-- The tail of `setup_collection` that creates the collection
(`create_collection` and the `str(collection.id) if collection.id else None`
return). -/
def createPart (env : ChromaEnv) (deleted : Bool) : SetupResult :=
  match env.createCollectionId with
  | .exn => ⟨none, deleted, true⟩
  | .ok id => ⟨if idTruthy id then some (id.getD "") else none, deleted, true⟩

/-- `setup_collection` from `app/setup_collection.py`: connect, list the
collections, delete the existing collection only when `reset` is set, reuse
the existing collection when `reset` is not set, and otherwise create it.
Every exception is caught and turned into a `None` return. -/
def setup_collection (env : ChromaEnv) (reset : Bool) : SetupResult :=
  match env.connect with
  | .exn => ⟨none, false, false⟩
  | .ok _ =>
    match env.collections with
    | .exn => ⟨none, false, false⟩
    | .ok cols =>
      if COLLECTION_NAME ∈ cols then
        if reset then
          match env.deleteRes with
          | .exn => ⟨none, true, false⟩
          | .ok _ => createPart env true
        else
          match env.getCollectionId with
          | .exn => ⟨none, false, false⟩
          | .ok id =>
            ⟨some (if idTruthy id then id.getD "" else "existing"), false, false⟩
      else createPart env false

/-! ### Basic facts about the splitting machinery -/

theorem hasPre_eq_append (s : List Char) :
    ∀ u, hasPre s u = true → u = s ++ u.drop s.length := by
  induction s with
  | nil => intro u _; simp
  | cons a as ih =>
    intro u h
    cases u with
    | nil => simp [hasPre] at h
    | cons b bs =>
      simp only [hasPre, Bool.and_eq_true, beq_iff_eq] at h
      obtain ⟨rfl, h2⟩ := h
      simpa using ih bs h2

theorem hasPre_nil_left (t : List Char) : hasPre [] t = true := by
  cases t <;> rfl

theorem findSep_nil_left (t : List Char) : findSep [] t = some 0 := by
  cases t <;> simp [findSep, hasPre_nil_left]

theorem findSep_some_eq (sep : List Char) :
    ∀ t i, findSep sep t = some i →
      t = t.take i ++ sep ++ t.drop (i + sep.length) := by
  intro t
  induction t with
  | nil =>
    intro i h
    simp only [findSep] at h
    split at h
    · next hp =>
      cases h
      have hs := hasPre_eq_append sep [] hp
      simp at hs
      simp [hs]
    · cases h
  | cons c ts ih =>
    intro i h
    simp only [findSep] at h
    split at h
    · next hp =>
      cases h
      simpa using hasPre_eq_append sep (c :: ts) hp
    · cases hfind : findSep sep ts with
      | none => rw [hfind] at h; simp at h
      | some j =>
        rw [hfind] at h
        simp only [Option.map_some', Option.some.injEq] at h
        subst h
        have hj := ih j hfind
        have hdrop : (j + 1 + sep.length) = (j + sep.length) + 1 := by omega
        rw [hdrop]
        simp only [List.take_succ_cons, List.drop_succ_cons, List.cons_append]
        rw [← hj]

theorem splitOnSepF_ne_nil (sep : List Char) (fuel : Nat) (t : List Char) :
    splitOnSepF sep fuel t ≠ [] := by
  cases fuel with
  | zero => simp [splitOnSepF]
  | succ n =>
    simp only [splitOnSepF]
    split
    · simp
    · split <;> simp

theorem joinSep_cons (sep p : List Char) {ps : List (List Char)} (h : ps ≠ []) :
    joinSep sep (p :: ps) = p ++ sep ++ joinSep sep ps := by
  cases ps with
  | nil => exact absurd rfl h
  | cons q qs => rfl

theorem joinSep_splitOnSepF (sep : List Char) (hsep : sep ≠ []) :
    ∀ fuel t, joinSep sep (splitOnSepF sep fuel t) = t := by
  intro fuel
  induction fuel with
  | zero => intro t; simp [splitOnSepF, joinSep]
  | succ n ih =>
    intro t
    simp only [splitOnSepF]
    cases hfind : findSep sep t with
    | none => simp [joinSep]
    | some i =>
      simp only [if_neg hsep]
      rw [joinSep_cons sep _ (splitOnSepF_ne_nil sep n _)]
      rw [ih]
      exact (findSep_some_eq sep t i hfind).symm

theorem joinSep_nil_map : ∀ t : List Char, joinSep [] (t.map (fun c => [c])) = t := by
  intro t
  induction t with
  | nil => simp [joinSep]
  | cons c ts ih =>
    cases ts with
    | nil => simp [joinSep]
    | cons d ds =>
      rw [List.map_cons, joinSep_cons _ _ (by simp)]
      rw [ih]
      simp

theorem joinSep_splitParts (sep t : List Char) :
    joinSep sep (splitParts sep t) = t := by
  by_cases hsep : sep = []
  · subst hsep
    simp only [splitParts, if_pos rfl]
    exact joinSep_nil_map t
  · simp only [splitParts, if_neg hsep, splitOnSep]
    exact joinSep_splitOnSepF sep hsep _ t

/-! ### Concatenation identity of the chunker -/

theorem flushA_flatten (a : List Char) : (flushA a).flatten = a := by
  unfold flushA
  split <;> simp [*]

theorem attachSep_flatten {count : List Char → Nat} {maxTokens : Nat}
    {recur : List Char → List (List Char)} {sep : List Char}
    (hsep : (recur sep).flatten = sep) :
    ∀ subs, (attachSep count maxTokens recur sep subs).flatten
      = subs.flatten ++ sep := by
  intro subs
  induction subs with
  | nil =>
    simp only [attachSep]
    split <;> simp [hsep]
  | cons l ls ih =>
    cases ls with
    | nil =>
      simp only [attachSep]
      split
      · simp
      · split <;> simp [hsep]
    | cons m ms =>
      simp only [attachSep, List.flatten_cons]
      rw [ih]
      simp

theorem packParts_flatten (count : List Char → Nat) (maxTokens : Nat)
    (sep : List Char) (recur : List Char → List (List Char))
    (hrec : ∀ u, (recur u).flatten = u) (parts : List (List Char)) :
    ∀ acc, (packParts count maxTokens sep recur parts acc).flatten
      = acc ++ joinSep sep parts := by
  induction parts with
  | nil => intro acc; simp [packParts, flushA_flatten, joinSep]
  | cons p ps ih =>
    intro acc
    cases ps with
    | nil =>
      simp only [packParts]
      split
      · simp [flushA_flatten, joinSep]
      · split <;> simp [flushA_flatten, joinSep, hrec]
    | cons q rest =>
      simp only [packParts]
      split
      · rw [ih, joinSep_cons sep p (by simp)]
        simp
      · split
        · rw [List.flatten_append, flushA_flatten, ih,
            joinSep_cons sep p (by simp)]
        · rw [List.flatten_append, flushA_flatten, List.flatten_append,
            attachSep_flatten (hrec sep), hrec, ih,
            joinSep_cons sep p (by simp)]
          simp

theorem chunkRec_flatten (count : List Char → Nat) (maxTokens : Nat) :
    ∀ seps t, (chunkRec count maxTokens seps t).flatten = t := by
  intro seps
  induction seps with
  | nil =>
    intro t
    simp only [chunkRec]
    split <;> simp [*]
  | cons s rest ih =>
    intro t
    simp only [chunkRec]
    split_ifs with h1 h2 h3
    · simp [h1]
    · simp
    · rw [packParts_flatten count maxTokens s _ ih]
      simp [joinSep_splitParts]
    · exact ih t

theorem verifyPass_flatten (count : List Char → Nat) (maxTokens : Nat)
    (seps : List (List Char)) :
    ∀ cs, (verifyPass count maxTokens seps cs).flatten = cs.flatten := by
  intro cs
  induction cs with
  | nil => simp [verifyPass]
  | cons c cs ih =>
    simp only [verifyPass, List.map_cons, List.flatten_cons, List.flatten_append]
    rw [show ((cs.map fun c =>
        if count c ≤ maxTokens then [c] else chunkRec count maxTokens seps c).flatten)
      = verifyPass count maxTokens seps cs from rfl, ih]
    split <;> simp [chunkRec_flatten]

theorem coalesce_flatten (count : List Char → Nat) (maxTokens : Nat) :
    ∀ cs buf, (coalesce count maxTokens cs buf).flatten = buf ++ cs.flatten := by
  intro cs
  induction cs with
  | nil => intro buf; simp [coalesce, flushA_flatten]
  | cons c cs ih =>
    intro buf
    simp only [coalesce]
    split
    · rw [ih]; simp
    · rw [List.flatten_append, flushA_flatten, ih]; simp

/-! ### Token-budget invariant of the chunker -/

theorem flushA_bound {count : List Char → Nat} {maxTokens : Nat} {a : List Char}
    (h : a = [] ∨ count a ≤ maxTokens) :
    ∀ c ∈ flushA a, count c ≤ maxTokens := by
  intro c hc
  unfold flushA at hc
  split at hc
  · simp at hc
  · next hne =>
    simp at hc
    subst hc
    rcases h with h | h
    · exact absurd h hne
    · exact h

theorem attachSep_bound {count : List Char → Nat} {maxTokens : Nat}
    {recur : List Char → List (List Char)} {sep : List Char}
    (hrecsep : ∀ c ∈ recur sep, count c ≤ maxTokens) :
    ∀ subs, (∀ c ∈ subs, count c ≤ maxTokens) →
      ∀ c ∈ attachSep count maxTokens recur sep subs, count c ≤ maxTokens := by
  intro subs
  induction subs with
  | nil =>
    intro _ c hc
    simp only [attachSep] at hc
    split at hc
    · next h => simp at hc; subst hc; exact h
    · exact hrecsep _ hc
  | cons l ls ih =>
    cases ls with
    | nil =>
      intro hsub c hc
      simp only [attachSep] at hc
      split at hc
      · next h =>
        simp at hc
        subst hc
        exact h
      · split at hc
        · next h =>
          rcases (by simpa using hc : c = l ∨ c = sep) with rfl | rfl
          · exact hsub _ (by simp)
          · exact h
        · rcases (by simpa using hc : c = l ∨ c ∈ recur sep) with rfl | hm
          · exact hsub _ (by simp)
          · exact hrecsep _ hm
    | cons m ms =>
      intro hsub c hc
      simp only [attachSep] at hc
      rcases (by simpa using hc :
          c = l ∨ c ∈ attachSep count maxTokens recur sep (m :: ms)) with rfl | hm
      · exact hsub _ (by simp)
      · exact ih (fun x hx => hsub x (List.mem_cons_of_mem l hx)) c hm

theorem packParts_bound (count : List Char → Nat) (maxTokens : Nat)
    (sep : List Char) (recur : List Char → List (List Char))
    (hrec : ∀ u c, c ∈ recur u → count c ≤ maxTokens) (parts : List (List Char)) :
    ∀ acc, (acc = [] ∨ count acc ≤ maxTokens) →
      ∀ c ∈ packParts count maxTokens sep recur parts acc, count c ≤ maxTokens := by
  induction parts with
  | nil =>
    intro acc hacc c hc
    exact flushA_bound hacc c hc
  | cons p ps ih =>
    intro acc hacc c hc
    cases ps with
    | nil =>
      simp only [packParts] at hc
      split at hc
      · next h => exact flushA_bound (Or.inr h) c hc
      · rcases List.mem_append.1 hc with hm | hm
        · exact flushA_bound hacc c hm
        · split at hm
          · next h => exact flushA_bound (Or.inr h) c hm
          · exact hrec p c hm
    | cons q rest =>
      simp only [packParts] at hc
      split at hc
      · next h => exact ih _ (Or.inr h) c hc
      · rcases List.mem_append.1 hc with hm | hm
        · exact flushA_bound hacc c hm
        · split at hm
          · next h => exact ih _ (Or.inr h) c hm
          · rcases List.mem_append.1 hm with hm2 | hm2
            · exact attachSep_bound (hrec sep) _ (hrec p) c hm2
            · exact ih _ (Or.inl rfl) c hm2

theorem packParts_bound_fit (count : List Char → Nat) (maxTokens : Nat)
    (sep : List Char) (recur : List Char → List (List Char))
    (parts : List (List Char))
    (hp : ∀ p ∈ parts, count (p ++ sep) ≤ maxTokens ∧ count p ≤ maxTokens) :
    ∀ acc, (acc = [] ∨ count acc ≤ maxTokens) →
      ∀ c ∈ packParts count maxTokens sep recur parts acc, count c ≤ maxTokens := by
  induction parts with
  | nil =>
    intro acc hacc c hc
    exact flushA_bound hacc c hc
  | cons p ps ih =>
    intro acc hacc c hc
    cases ps with
    | nil =>
      simp only [packParts] at hc
      split at hc
      · next h => exact flushA_bound (Or.inr h) c hc
      · rcases List.mem_append.1 hc with hm | hm
        · exact flushA_bound hacc c hm
        · rw [if_pos (hp p (by simp)).2] at hm
          exact flushA_bound (Or.inr (hp p (by simp)).2) c hm
    | cons q rest =>
      simp only [packParts] at hc
      split at hc
      · next h => exact ih (fun x hx => hp x (List.mem_cons_of_mem p hx)) _ (Or.inr h) c hc
      · rcases List.mem_append.1 hc with hm | hm
        · exact flushA_bound hacc c hm
        · rw [if_pos (hp p (by simp)).1] at hm
          exact ih (fun x hx => hp x (List.mem_cons_of_mem p hx)) _
            (Or.inr (hp p (by simp)).1) c hm

theorem chunkRec_bound (count : List Char → Nat) (maxTokens : Nat)
    (hmax : 1 ≤ maxTokens) (hchar : ∀ ch : Char, count [ch] ≤ 1) :
    ∀ seps, [] ∈ seps →
      ∀ t c, c ∈ chunkRec count maxTokens seps t → count c ≤ maxTokens := by
  intro seps
  induction seps with
  | nil => intro h; exact absurd h (by simp)
  | cons s rest ih =>
    intro hmem t c hc
    simp only [chunkRec] at hc
    split_ifs at hc with h1 h2 h3
    · simp at hc
    · simp at hc
      subst hc
      exact h2
    · by_cases hs : s = []
      · subst hs
        refine packParts_bound_fit count maxTokens [] _ (splitParts [] t) ?_ []
          (Or.inl rfl) c hc
        intro p hp
        unfold splitParts at hp
        rw [if_pos rfl] at hp
        rw [List.mem_map] at hp
        obtain ⟨ch, _, rfl⟩ := hp
        constructor
        · simpa using le_trans (hchar ch) hmax
        · exact le_trans (hchar ch) hmax
      · have hrest : ([] : List Char) ∈ rest := by
          rcases List.mem_cons.1 hmem with h | h
          · exact absurd h.symm hs
          · exact h
        exact packParts_bound count maxTokens s _
          (fun u x hx => ih hrest u x hx) (splitParts s t) [] (Or.inl rfl) c hc
    · have hs : s ≠ [] := by
        intro h
        subst h
        simp [findSep_nil_left] at h3
      have hrest : ([] : List Char) ∈ rest := by
        rcases List.mem_cons.1 hmem with h | h
        · exact absurd h.symm hs
        · exact h
      exact ih hrest t c hc

theorem verifyPass_bound (count : List Char → Nat) (maxTokens : Nat)
    (hmax : 1 ≤ maxTokens) (hchar : ∀ ch : Char, count [ch] ≤ 1)
    (seps : List (List Char)) (hmem : [] ∈ seps) :
    ∀ cs c, c ∈ verifyPass count maxTokens seps cs → count c ≤ maxTokens := by
  intro cs c hc
  simp only [verifyPass, List.mem_flatten, List.mem_map] at hc
  obtain ⟨l, ⟨x, _, rfl⟩, hcl⟩ := hc
  split at hcl
  · next h =>
    simp at hcl
    subst hcl
    exact h
  · exact chunkRec_bound count maxTokens hmax hchar seps hmem x c hcl

theorem coalesce_bound (count : List Char → Nat) (maxTokens : Nat) :
    ∀ cs buf, (∀ c ∈ cs, count c ≤ maxTokens) →
      (buf = [] ∨ count buf ≤ maxTokens) →
      ∀ c ∈ coalesce count maxTokens cs buf, count c ≤ maxTokens := by
  intro cs
  induction cs with
  | nil =>
    intro buf _ hbuf c hc
    exact flushA_bound hbuf c hc
  | cons x cs ih =>
    intro buf hcs hbuf c hc
    simp only [coalesce] at hc
    split at hc
    · next h => exact ih _ (fun y hy => hcs y (List.mem_cons_of_mem x hy)) (Or.inr h) c hc
    · rcases List.mem_append.1 hc with hm | hm
      · exact flushA_bound hbuf c hm
      · exact ih _ (fun y hy => hcs y (List.mem_cons_of_mem x hy))
          (Or.inr (hcs x (by simp))) c hm

theorem mem_of_getLast?_eq {α : Type} {l : List α} {a : α}
    (h : l.getLast? = some a) : a ∈ l := by
  induction l with
  | nil => simp at h
  | cons x xs ih =>
    cases xs with
    | nil =>
      simp at h
      simp [h]
    | cons y ys =>
      rw [List.getLast?_cons_cons] at h
      exact List.mem_cons_of_mem x (ih h)

theorem chunkRec_small (count : List Char → Nat) (maxTokens : Nat)
    (t : List Char) (ht : t ≠ []) (hcount : count t ≤ maxTokens) :
    ∀ seps, chunkRec count maxTokens seps t = [t] := by
  intro seps
  cases seps with
  | nil => simp [chunkRec, ht]
  | cons s rest => simp [chunkRec, ht, hcount]

/-! ### Claim theorems for the chunker -/

/-- C1: for every input text, every positive token budget and every valid
separator hierarchy (non-empty, ending in the empty separator, including the
degenerate hierarchy consisting of only the empty separator), the top-level
chunk call succeeds and every returned chunk has token count at most
`maxTokens`.  The tokenizer oracle is assumed to satisfy the property the
spec states for it: a single character fits a budget of one token. -/
theorem chunk_within_budget (count : List Char → Nat) (maxTokens : Nat)
    (seps : List (List Char)) (t : List Char)
    (hmax : 0 < maxTokens) (hchar : ∀ ch : Char, count [ch] ≤ 1)
    (hseps : seps.getLast? = some []) :
    ∃ cs, chunk count maxTokens seps t = Except.ok cs ∧
      ∀ c ∈ cs, count c ≤ maxTokens := by
  have hmem : ([] : List Char) ∈ seps := mem_of_getLast?_eq hseps
  by_cases ht : t = []
  · subst ht
    exact ⟨[], by simp [chunk], by simp⟩
  · have hbound : ∀ c ∈ coalesce count maxTokens
        (verifyPass count maxTokens seps (chunkRec count maxTokens seps t)) [],
        count c ≤ maxTokens := by
      refine coalesce_bound count maxTokens _ [] ?_ (Or.inl rfl)
      intro c hc
      exact verifyPass_bound count maxTokens hmax hchar seps hmem _ c hc
    have hall : (coalesce count maxTokens
        (verifyPass count maxTokens seps (chunkRec count maxTokens seps t)) []).all
        (fun c => decide (count c ≤ maxTokens)) = true := by
      rw [List.all_eq_true]
      intro x hx
      simpa using hbound x hx
    refine ⟨_, ?_, hbound⟩
    simp only [chunk, if_neg ht]
    rw [if_pos hall]

/-- Witness for C1 at a concrete input: the degenerate hierarchy, budget 1,
the character-count tokenizer and the text `"abc"`. -/
theorem chunk_within_budget_witness :
    ∃ cs, chunk List.length 1 [[]] ['a', 'b', 'c'] = Except.ok cs ∧
      ∀ c ∈ cs, List.length c ≤ 1 :=
  chunk_within_budget List.length 1 [[]] ['a', 'b', 'c'] (by decide)
    (fun ch => by simp) (by decide)

/-- C6: chunking the empty text returns the empty chunk list (for every
tokenizer, budget and hierarchy, hence in particular for every positive
budget and valid hierarchy). -/
theorem chunk_empty_input (count : List Char → Nat) (maxTokens : Nat)
    (seps : List (List Char)) :
    chunk count maxTokens seps [] = Except.ok [] := by
  simp [chunk]

/-- C3 fails as stated: the empty text is within every budget, yet the chunk
operation returns `[]` rather than `[""]`, per the spec's own empty-input
edge policy (rule 7 of §4.1). -/
theorem chunk_base_case_counterexample :
    List.length ([] : List Char) ≤ 1 ∧
      chunk List.length 1 [[]] [] ≠ Except.ok [([] : List Char)] ∧
      chunk List.length 1 [[]] [] = Except.ok [] := by
  refine ⟨by simp, ?_, by simp [chunk]⟩
  simp [chunk]

/-- C3 amended: for every NON-EMPTY text whose token count is within the
budget, the chunk operation returns the singleton list containing the
unmodified input (so re-chunking any already-conformant produced chunk, which
is non-empty, returns exactly that chunk). -/
theorem chunk_base_case (count : List Char → Nat) (maxTokens : Nat)
    (seps : List (List Char)) (t : List Char) (ht : t ≠ [])
    (hcount : count t ≤ maxTokens) :
    chunk count maxTokens seps t = Except.ok [t] := by
  have hraw := chunkRec_small count maxTokens t ht hcount seps
  simp [chunk, ht, hraw, verifyPass, hcount, coalesce, flushA]

/-- Witness for the amended C3 at a concrete input. -/
theorem chunk_base_case_witness :
    chunk List.length 2 [[]] ['a'] = Except.ok [['a']] :=
  chunk_base_case List.length 2 [[]] ['a'] (by decide) (by decide)

/-- C4: whenever the top-level chunk call returns a chunk list, the
concatenation of the returned chunks, in order, is exactly the input text —
no text dropped, none duplicated — and this survives the verification and
coalescing passes.  (The model reattaches every separator to the chunk that
precedes it, so the identity is exact, which implies the spec's
"equivalent modulo separator reattachment".) -/
theorem chunk_concat_identity (count : List Char → Nat) (maxTokens : Nat)
    (seps : List (List Char)) (t : List Char) (cs : List (List Char))
    (h : chunk count maxTokens seps t = Except.ok cs) : cs.flatten = t := by
  simp only [chunk] at h
  split at h
  · next ht =>
    simp only [Except.ok.injEq] at h
    subst h
    simp [ht]
  · split at h
    · simp only [Except.ok.injEq] at h
      subst h
      rw [coalesce_flatten, verifyPass_flatten, chunkRec_flatten]
      simp
    · simp at h

/-- Witness for C4 at a concrete input. -/
theorem chunk_concat_identity_witness :
    List.flatten [['a'], ['b']] = ['a', 'b'] :=
  chunk_concat_identity List.length 1 [[]] ['a', 'b'] [['a'], ['b']] (by rfl)

/-! ### Claim theorems for the aggregator and the embedding wrapper -/

theorem halfSum_self : ∀ v : List ℚ,
    (List.zipWith (· + ·) v v).map (fun x => x / 2) = v := by
  intro v
  induction v with
  | nil => simp
  | cons a v ih =>
    simp only [List.zipWith_cons_cons, List.map_cons, ih]
    congr 1
    ring

/-- C5: the aggregator is a (pure, deterministic) element-wise arithmetic
mean of a non-empty vector list: the mean of a single vector is that vector,
the mean of two identical vectors is that vector, and the element-wise mean
of `[[1,0],[0,1]]` is `[1/2, 1/2]`. -/
theorem aggregate_mean_facts (v : List ℚ) :
    aggregate [v] = Except.ok v ∧ aggregate [v, v] = Except.ok v ∧
      aggregate [[(1 : ℚ), 0], [0, 1]] = Except.ok [1/2, 1/2] := by
  refine ⟨?_, ?_, ?_⟩
  · simp [aggregate, vecSum]
  · simp only [aggregate, vecSum, List.foldl_cons, List.foldl_nil,
      List.length_cons, List.length_nil]
    rw [show ((0 + 1 + 1 : ℕ) : ℚ) = 2 by norm_num]
    rw [halfSum_self v]
  · simp only [aggregate, vecSum, List.foldl_cons, List.foldl_nil,
      List.length_cons, List.length_nil]
    norm_num

/-- C7: for a document whose chunking produced zero chunks, the embedding
wrapper still returns exactly one `dim`-dimensional zero vector rather than
an empty list, and for every chunk list its output has length at least one,
so the aggregator's input is never empty. -/
theorem embedDocument_nonempty (embed : List Char → Option (List ℚ)) (dim : Nat) :
    embedDocument embed dim [] = [List.replicate dim 0] ∧
      (List.replicate dim (0 : ℚ)).length = dim ∧
      ∀ chunks, 1 ≤ (embedDocument embed dim chunks).length := by
  refine ⟨by simp [embedDocument], List.length_replicate dim 0, ?_⟩
  intro chunks
  unfold embedDocument
  split
  · simp
  · next h =>
    simp only [List.length_map]
    cases chunks with
    | nil => simp at h
    | cons c cs => simp

/-! ### Claim theorem for EmbeddingService.embed_text -/

/-- C2: with a falsy API key or on any provider failure, `embed_text`
returns (rather than propagates) a vector of exactly `EMBEDDING_DIMENSIONS`
(3072) zeros; and, given the provider interface contract that successful
vectors have dimension `EMBEDDING_DIMENSIONS`, every vector it returns has
exactly that many entries. -/
theorem embed_text_spec (apiKey : Option String) (provider : ProviderOutcome)
    (hdim : ∀ v, provider = ProviderOutcome.ok v →
      v.length = EMBEDDING_DIMENSIONS) :
    ((keyFalsy apiKey = true ∨ provider = ProviderOutcome.failed) →
      embed_text apiKey provider = List.replicate EMBEDDING_DIMENSIONS 0) ∧
    (embed_text apiKey provider).length = EMBEDDING_DIMENSIONS := by
  constructor
  · intro h
    cases provider with
    | ok v =>
      rcases h with h | h
      · simp [embed_text, h]
      · cases h
    | failed => simp [embed_text]
  · cases provider with
    | ok v =>
      by_cases hk : keyFalsy apiKey = true
      · simp [embed_text, hk]
      · simp only [embed_text, hk, if_false, Bool.false_eq_true]
        exact hdim v rfl
    | failed => simp [embed_text]

/-- Witness for C2 at a concrete input: a set API key and a successful
3072-dimensional provider vector. -/
theorem embed_text_spec_witness :
    (embed_text (some "k") (ProviderOutcome.ok (List.replicate 3072 1))).length
      = EMBEDDING_DIMENSIONS :=
  (embed_text_spec (some "k") (ProviderOutcome.ok (List.replicate 3072 1))
    (fun v hv => by cases hv; rw [List.length_replicate]; rfl)).2

/-! ### Shape of the search filters -/

theorem langCond_plain (l : TechComponent) :
    ∀ kv ∈ langCond l, startsDollar kv.1 = false := by
  intro kv hkv
  unfold langCond at hkv
  rcases List.mem_cons.1 hkv with rfl | h
  · show startsDollar "language" = false
    decide
  · split at h
    · rcases List.mem_singleton.1 h with rfl
      show startsDollar "language_version" = false
      decide
    · simp at h

theorem fwCond_plain (f : TechComponent) :
    ∀ kv ∈ fwCond f, startsDollar kv.1 = false := by
  intro kv hkv
  unfold fwCond at hkv
  rcases List.mem_cons.1 hkv with rfl | h
  · show startsDollar "framework" = false
    decide
  · split at h
    · rcases List.mem_singleton.1 h with rfl
      show startsDollar "framework_version" = false
      decide
    · simp at h

theorem libCond_plain (l : TechComponent) :
    ∀ kv ∈ libCond l, startsDollar kv.1 = false := by
  intro kv hkv
  unfold libCond at hkv
  rcases List.mem_cons.1 hkv with rfl | h
  · show startsDollar "library" = false
    decide
  · split at h
    · rcases List.mem_singleton.1 h with rfl
      show startsDollar "library_version" = false
      decide
    · simp at h

theorem plain_append {c d : Cond} (hc : ∀ kv ∈ c, startsDollar kv.1 = false)
    (hd : ∀ kv ∈ d, startsDollar kv.1 = false) :
    ∀ kv ∈ c ++ d, startsDollar kv.1 = false := by
  intro kv hkv
  rcases List.mem_append.1 hkv with h | h
  · exact hc kv h
  · exact hd kv h

theorem whereConditions_shape (req : QueryRequest) :
    ∀ c ∈ whereConditions req, ∃ r, c = baseFilter req ++ r ∧
      ∀ kv ∈ r, startsDollar kv.1 = false := by
  intro c hc
  obtain ⟨cat, langs, fws, libs⟩ := req
  cases cat with
  | language =>
    simp only [whereConditions] at hc
    split at hc
    · simp only [List.mem_map] at hc
      obtain ⟨l, _, rfl⟩ := hc
      exact ⟨langCond l, rfl, langCond_plain l⟩
    · rcases List.mem_singleton.1 hc with rfl
      exact ⟨[], by simp, by simp⟩
  | framework =>
    simp only [whereConditions] at hc
    split at hc
    · simp only [List.mem_flatten, List.mem_map] at hc
      obtain ⟨l, ⟨f, _, rfl⟩, hcl⟩ := hc
      split at hcl
      · simp only [List.mem_map] at hcl
        obtain ⟨lg, _, rfl⟩ := hcl
        exact ⟨fwCond f ++ langCond lg, by simp,
          plain_append (fwCond_plain f) (langCond_plain lg)⟩
      · rcases List.mem_singleton.1 hcl with rfl
        exact ⟨fwCond f, rfl, fwCond_plain f⟩
    · rcases List.mem_singleton.1 hc with rfl
      exact ⟨[], by simp, by simp⟩
  | library =>
    simp only [whereConditions] at hc
    split at hc
    · simp only [List.mem_flatten, List.mem_map] at hc
      obtain ⟨l, ⟨lib, _, rfl⟩, hcl⟩ := hc
      split at hcl
      · split at hcl
        · simp only [List.mem_flatten, List.mem_map] at hcl
          obtain ⟨l2, ⟨lg, _, rfl⟩, hcl2⟩ := hcl
          simp only [List.mem_map] at hcl2
          obtain ⟨f, _, rfl⟩ := hcl2
          exact ⟨libCond lib ++ langCond lg ++ fwCond f, by simp,
            plain_append (plain_append (libCond_plain lib) (langCond_plain lg))
              (fwCond_plain f)⟩
        · split at hcl
          · simp only [List.mem_map] at hcl
            obtain ⟨lg, _, rfl⟩ := hcl
            exact ⟨libCond lib ++ langCond lg, by simp,
              plain_append (libCond_plain lib) (langCond_plain lg)⟩
          · simp only [List.mem_map] at hcl
            obtain ⟨f, _, rfl⟩ := hcl
            exact ⟨libCond lib ++ fwCond f, by simp,
              plain_append (libCond_plain lib) (fwCond_plain f)⟩
      · rcases List.mem_singleton.1 hcl with rfl
        exact ⟨libCond lib, rfl, libCond_plain lib⟩
    · rcases List.mem_singleton.1 hc with rfl
      exact ⟨[], by simp, by simp⟩

theorem whereConditions_ne_nil (req : QueryRequest) : whereConditions req ≠ [] := by
  obtain ⟨cat, langs, fws, libs⟩ := req
  cases cat with
  | language =>
    simp only [whereConditions]
    split
    · next h =>
      cases langs with
      | none => simp [listTruthy] at h
      | some l =>
        cases l with
        | nil => simp [listTruthy] at h
        | cons x xs => simp
    · simp
  | framework =>
    simp only [whereConditions]
    split
    · next h =>
      cases fws with
      | none => simp [listTruthy] at h
      | some fl =>
        cases fl with
        | nil => simp [listTruthy] at h
        | cons f fs =>
          simp only [Option.getD_some, List.map_cons, List.flatten_cons]
          intro heq
          rw [List.append_eq_nil] at heq
          have h1 := heq.1
          split at h1
          · next hl =>
            cases langs with
            | none => simp [listTruthy] at hl
            | some l =>
              cases l with
              | nil => simp [listTruthy] at hl
              | cons y ys => simp at h1
          · simp at h1
    · simp
  | library =>
    simp only [whereConditions]
    split
    · next h =>
      cases libs with
      | none => simp [listTruthy] at h
      | some ll =>
        cases ll with
        | nil => simp [listTruthy] at h
        | cons lb lbs =>
          simp only [Option.getD_some, List.map_cons, List.flatten_cons]
          intro heq
          rw [List.append_eq_nil] at heq
          have h1 := heq.1
          split at h1
          · split at h1
            · next hb =>
              rw [Bool.and_eq_true] at hb
              obtain ⟨hl, hf⟩ := hb
              cases langs with
              | none => simp [listTruthy] at hl
              | some l =>
                cases l with
                | nil => simp [listTruthy] at hl
                | cons y ys =>
                  cases fws with
                  | none => simp [listTruthy] at hf
                  | some fl =>
                    cases fl with
                    | nil => simp [listTruthy] at hf
                    | cons z zs => simp at h1
            · next hor hand =>
              split at h1
              · next hl =>
                cases langs with
                | none => simp [listTruthy] at hl
                | some l =>
                  cases l with
                  | nil => simp [listTruthy] at hl
                  | cons y ys => simp at h1
              · next hl =>
                have hf : listTruthy fws = true := by
                  rcases Bool.or_eq_true_iff.1 hor with h | h
                  · exact absurd h hl
                  · exact h
                cases fws with
                | none => simp [listTruthy] at hf
                | some fl =>
                  cases fl with
                  | nil => simp [listTruthy] at hf
                  | cons z zs => simp at h1
          · simp at h1
    · simp

/-- C8: for every query request, `_build_search_filters` returns a non-empty
filter (the empty-dict branch is unreachable) whose shape is one of the three
accepted by ChromaDB: a single `$or` key over at least two conditions, a
single `$and` key over single-key sub-conditions, or a single plain
(non-`$`) key. -/
theorem build_search_filters_shape (req : QueryRequest) :
    build_search_filters req ≠ [] ∧
      ((∃ cs, build_search_filters req = [("$or", FilterValue.conds cs)] ∧
          2 ≤ cs.length) ∨
       (∃ cs, build_search_filters req = [("$and", FilterValue.conds cs)] ∧
          ∀ c ∈ cs, c.length = 1) ∨
       (∃ k v, build_search_filters req = [(k, FilterValue.str v)] ∧
          startsDollar k = false)) := by
  by_cases h1 : 1 < (whereConditions req).length
  · have hraw : whereFilterRaw req
        = [("$or", FilterValue.conds (whereConditions req))] := by
      unfold whereFilterRaw
      rw [if_pos h1]
    have hd : startsDollar "$or" = true := by decide
    have heq : build_search_filters req
        = [("$or", FilterValue.conds (whereConditions req))] := by
      unfold build_search_filters
      rw [hraw]
      simp [hd]
    refine ⟨by simp [heq], Or.inl ⟨whereConditions req, heq, by omega⟩⟩
  · have hne := whereConditions_ne_nil req
    have hlen : (whereConditions req).length = 1 := by
      have := List.length_pos.2 hne
      omega
    obtain ⟨c, hc⟩ := List.length_eq_one.1 hlen
    have hcmem : c ∈ whereConditions req := by rw [hc]; simp
    obtain ⟨r, hcr, hrplain⟩ := whereConditions_shape req c hcmem
    have hcplain : ∀ kv ∈ c, startsDollar kv.1 = false := by
      rw [hcr]
      refine plain_append ?_ hrplain
      intro kv hkv
      rcases List.mem_singleton.1 hkv with rfl
      show startsDollar "category" = false
      decide
    have hcne : c ≠ [] := by rw [hcr]; simp [baseFilter]
    have hraw : whereFilterRaw req
        = c.map (fun kv => (kv.1, FilterValue.str kv.2)) := by
      unfold whereFilterRaw
      rw [hc]
      rw [if_neg (by simp)]
    by_cases h2 : 1 < c.length
    · have hguard : ((!(c.map fun kv => (kv.1, FilterValue.str kv.2)).any
          (fun kv => startsDollar kv.1)) &&
          decide (1 < (c.map fun kv => (kv.1, FilterValue.str kv.2)).length))
          = true := by
        rw [Bool.and_eq_true]
        constructor
        · rw [Bool.not_eq_true']
          rw [List.any_eq_false]
          intro x hx
          rw [List.mem_map] at hx
          obtain ⟨kv, hkv, rfl⟩ := hx
          simp [hcplain kv hkv]
        · rw [List.length_map]
          exact decide_eq_true h2
      have heq : build_search_filters req
          = [("$and", FilterValue.conds
              ((c.map fun kv => (kv.1, FilterValue.str kv.2)).map
                (fun kv => [(kv.1, strOf kv.2)])))] := by
        unfold build_search_filters
        rw [hraw]
        exact if_pos hguard
      have hmem1 : ∀ x ∈ (c.map fun kv => (kv.1, FilterValue.str kv.2)).map
          (fun kv => [(kv.1, strOf kv.2)]), x.length = 1 := by
        intro x hx
        simp only [List.mem_map] at hx
        obtain ⟨kv, _, rfl⟩ := hx
        rfl
      exact ⟨by simp [heq], Or.inr (Or.inl ⟨_, heq, hmem1⟩)⟩
    · have hclen : c.length = 1 := by
        have := List.length_pos.2 hcne
        omega
      obtain ⟨kv, hkv⟩ := List.length_eq_one.1 hclen
      have heq : build_search_filters req = [(kv.1, FilterValue.str kv.2)] := by
        unfold build_search_filters
        rw [hraw, hkv]
        rw [if_neg ?_]
        · simp
        · intro hcon
          rw [Bool.and_eq_true] at hcon
          have h3 := of_decide_eq_true hcon.2
          simp at h3
      exact ⟨by simp [heq], Or.inr (Or.inr ⟨kv.1, kv.2, heq,
        hcplain kv (by simp [hkv])⟩)⟩

/-! ### Claim theorem for list_components -/

theorem mkComponent_fst {n : Option String} {v : String} {x : String × String}
    (h : mkComponent n v = some x) : x.1 ≠ "" := by
  cases n with
  | none => simp [mkComponent] at h
  | some s =>
    simp only [mkComponent] at h
    split at h
    · next hs =>
      cases h
      exact hs
    · cases h

theorem componentOf_fst {category : String} {m : Meta} {x : String × String}
    (h : componentOf category m = some x) : x.1 ≠ "" := by
  unfold componentOf at h
  split at h
  · exact mkComponent_fst h
  · split at h
    · exact mkComponent_fst h
    · exact mkComponent_fst h

/-- C9: `list_components` is total — exceptions from the collection call are
absorbed into `[]` — returning `[]` when the database is unavailable, when
the category is not one of language/framework/library, or when the
collection call raises or yields an unusable value; otherwise its result is
a sorted, duplicate-free list containing exactly the (name, version) pairs
of the metadata entries whose name is present and truthy. -/
theorem list_components_spec (available : Bool) (category : String)
    (o : GetOutcome) :
    (available = false → list_components available category o = []) ∧
    (category ∉ validCategories → list_components available category o = []) ∧
    ((o = GetOutcome.raised ∨ o = GetOutcome.isNone ∨ o = GetOutcome.notDict) →
      list_components available category o = []) ∧
    (∀ metas, o = GetOutcome.ok metas → available = true →
      category ∈ validCategories →
      (List.Sorted pairRel (list_components available category o) ∧
       (list_components available category o).Nodup ∧
       (∀ x, x ∈ list_components available category o ↔
          x ∈ (metas.getD []).filterMap (componentOf category)) ∧
       (∀ x ∈ list_components available category o, x.1 ≠ ""))) := by
  refine ⟨?_, ?_, ?_, ?_⟩
  · intro h
    simp [list_components, h]
  · intro h
    simp [list_components, h]
  · intro h
    rcases h with rfl | rfl | rfl <;>
      · unfold list_components
        split
        · rfl
        · split
          · rfl
          · rfl
  · intro metas ho ha hcat
    subst ho
    subst ha
    have hres : list_components true category (GetOutcome.ok metas)
        = sortPairs ((metas.getD []).filterMap (componentOf category)) := by
      unfold list_components
      rw [if_neg (by simp)]
      rw [if_neg (not_not_intro hcat)]
    rw [hres]
    unfold sortPairs
    refine ⟨List.sorted_insertionSort pairRel _, ?_, ?_, ?_⟩
    · exact ((List.perm_insertionSort pairRel _).symm).nodup (List.nodup_dedup _)
    · intro x
      rw [(List.perm_insertionSort pairRel _).mem_iff, List.mem_dedup]
    · intro x hx
      have hx2 : x ∈ (metas.getD []).filterMap (componentOf category) := by
        rw [← List.mem_dedup]
        exact (List.perm_insertionSort pairRel _).mem_iff.1 hx
      obtain ⟨m, _, hm⟩ := List.mem_filterMap.1 hx2
      exact componentOf_fst hm

/-- Witness for C9 at concrete inputs: an unavailable database returns `[]`,
and a successful collection read yields exactly the truthy-name pairs. -/
theorem list_components_spec_witness :
    list_components false "language" GetOutcome.raised = [] ∧
      (∀ x, x ∈ list_components true "language"
          (GetOutcome.ok (some [[("language", "python"),
            ("language_version", "3.12")]])) ↔
        x ∈ List.filterMap (componentOf "language")
          [[("language", "python"), ("language_version", "3.12")]]) :=
  ⟨(list_components_spec false "language" GetOutcome.raised).1 rfl,
   ((list_components_spec true "language"
      (GetOutcome.ok (some [[("language", "python"),
        ("language_version", "3.12")]]))).2.2.2 _ rfl rfl
      (by decide)).2.2.1⟩

/-! ### Claim theorem for setup_collection -/

/-- C10: with `reset = false` and the collection already existing,
`setup_collection` leaves the collection untouched — `delete_collection` is
never invoked and no new collection is created — and returns a non-`None`
identifier when `get_collection` succeeds; `delete_collection` is invoked
only when `reset = true` and the collection exists. -/
theorem setup_collection_frame (env : ChromaEnv) (reset : Bool) :
    (reset = false → (setup_collection env reset).deleteInvoked = false) ∧
    ((setup_collection env reset).deleteInvoked = true →
      reset = true ∧ ∃ cols, env.collections = CallRes.ok cols ∧
        COLLECTION_NAME ∈ cols) ∧
    (∀ cols, reset = false → env.connect = CallRes.ok () →
      env.collections = CallRes.ok cols → COLLECTION_NAME ∈ cols →
      (setup_collection env reset).createInvoked = false ∧
      ((∃ id, env.getCollectionId = CallRes.ok id) →
        ∃ s, (setup_collection env reset).ret = some s)) := by
  obtain ⟨conn, colsR, delR, getR, createR⟩ := env
  refine ⟨?_, ?_, ?_⟩
  · intro hr
    subst hr
    cases conn with
    | exn => rfl
    | ok u =>
      cases colsR with
      | exn => rfl
      | ok cols =>
        simp only [setup_collection]
        by_cases hm : COLLECTION_NAME ∈ cols
        · rw [if_pos hm, if_neg (by simp)]
          cases getR <;> rfl
        · rw [if_neg hm]
          unfold createPart
          cases createR <;> rfl
  · intro hdel
    cases conn with
    | exn => cases hdel
    | ok u =>
      cases colsR with
      | exn => cases hdel
      | ok cols =>
        simp only [setup_collection] at hdel
        by_cases hm : COLLECTION_NAME ∈ cols
        · rw [if_pos hm] at hdel
          cases reset with
          | false =>
            rw [if_neg (by simp)] at hdel
            cases getR <;> cases hdel
          | true => exact ⟨rfl, cols, rfl, hm⟩
        · rw [if_neg hm] at hdel
          unfold createPart at hdel
          cases createR <;> cases hdel
  · intro cols hr hconn hcols hm
    subst hr
    subst hconn
    subst hcols
    simp only [setup_collection]
    rw [if_pos hm, if_neg (by simp)]
    cases getR with
    | exn =>
      refine ⟨rfl, ?_⟩
      rintro ⟨id, hid⟩
      cases hid
    | ok id => exact ⟨rfl, fun _ => ⟨_, rfl⟩⟩

/-- Witness for C10 at a concrete environment in which the collection
already exists and every client call succeeds. -/
theorem setup_collection_frame_witness :
    (setup_collection ⟨CallRes.ok (), CallRes.ok ["documentation_snippets"],
        CallRes.ok (), CallRes.ok (some "abc123"), CallRes.ok (some "newid")⟩
        false).deleteInvoked = false ∧
    (setup_collection ⟨CallRes.ok (), CallRes.ok ["documentation_snippets"],
        CallRes.ok (), CallRes.ok (some "abc123"), CallRes.ok (some "newid")⟩
        false).createInvoked = false ∧
    ∃ s, (setup_collection ⟨CallRes.ok (), CallRes.ok ["documentation_snippets"],
        CallRes.ok (), CallRes.ok (some "abc123"), CallRes.ok (some "newid")⟩
        false).ret = some s := by
  refine ⟨(setup_collection_frame _ false).1 rfl, ?_, ?_⟩
  · exact ((setup_collection_frame _ false).2.2 ["documentation_snippets"]
      rfl rfl rfl (by decide)).1
  · exact ((setup_collection_frame _ false).2.2 ["documentation_snippets"]
      rfl rfl rfl (by decide)).2 ⟨some "abc123", rfl⟩

end Anchoring
